import Mathlib

/-!
Shallow embedding of `observable-maps` (`src/lib.rs`): a key-value store whose
readers can block for the *next* value of a key.  The Rust code stores, per
key, a `Price<T>` record (`value : Option<T>`, `waiters : Option<Vec<SyncSender<T>>>`)
inside a `HashMap<String, Price<T>>` (`ThreadUnsafe<T>`), and uses
`std::sync::mpsc::sync_channel(1)` channels to hand the next value to waiters.

Modelling choices:
* Each `sync_channel(1)` pair is modelled by a `Chan` record (one-slot buffer
  plus liveness flags for the two halves) stored in a channel heap
  `List (Chan T)`; a channel is named by its index in that heap, and a
  `SyncSender<T>` held in a waiter list is modelled by that index.
* `ThreadUnsafe<T>` is modelled together with the channel heap in one state
  record `ThreadUnsafe T` (`hashmap` = the Rust `HashMap`, as an association
  list; `chans` = the ambient channel heap).
* Blocking (`send` on a full channel, `recv` on an empty open channel) is
  modelled explicitly: state-changing operations that can block return
  `Option _` (`none` = the calling thread blocks), and `recv` has a
  `blocked` outcome.
* `Chan.everSent` is ghost instrumentation (a history variable): it records
  whether a value was ever sent on the channel and influences no behaviour.
-/

namespace OMaps

/-- Rust `std::sync::mpsc::SendError<T>`: returned by `SyncSender::send` when
the receiving half is disconnected; carries the undelivered value. -/
structure SendError (T : Type) where
  val : T
deriving Repr, DecidableEq

/-- State of one `sync_channel(1)` channel: the one-slot buffer, whether the
sending half (`SyncSender`) is still alive, whether the receiving half
(`Receiver`) is still alive, and the ghost flag `everSent` recording whether
any value was ever sent on this channel (instrumentation only). -/
structure Chan (T : Type) where
  buf : Option T
  senderAlive : Bool
  receiverAlive : Bool
  everSent : Bool
deriving Repr, DecidableEq

/-- A freshly created `sync_channel(1)`: empty buffer, both halves alive. -/
def Chan.fresh (T : Type) : Chan T :=
  { buf := none, senderAlive := true, receiverAlive := true, everSent := false }

/-- `SyncSender::send(v)` on a capacity-1 sync channel: if the receiver has
been dropped the send fails with `SendError(v)` (modelled as `.error ()`,
the value being the one passed); if the buffer is empty the value is
buffered; if the buffer is full the sender blocks (`none`). -/
def Chan.send {T : Type} (c : Chan T) (v : T) : Option (Except Unit (Chan T)) :=
  if c.receiverAlive then
    match c.buf with
    | none => some (.ok { c with buf := some v, everSent := true })
    | some _ => none
  else some (.error ())

/-- Outcome of `Receiver::recv()`: a value, `Err(RecvError)` (here `err`),
or the caller is still blocked. -/
inductive RecvResult (T : Type) where
  | ok (v : T)
  | err
  | blocked
deriving Repr, DecidableEq

/-- `Receiver::recv()` on a capacity-1 sync channel: a buffered value is
returned (emptying the buffer) even if the sender has since been dropped;
otherwise, if the sender is gone the receiver gets `RecvError`, and if the
sender is alive the caller blocks. -/
def Chan.recv {T : Type} (c : Chan T) : RecvResult T × Chan T :=
  match c.buf with
  | some v => (.ok v, { c with buf := none })
  | none => if c.senderAlive then (.blocked, c) else (.err, c)

/-- Rust `Price<T>`: the per-key entry.  `waiters` holds the channel-heap
indices of the registered `SyncSender` halves. -/
structure Price (T : Type) where
  value : Option T
  waiters : Option (List Nat)
deriving Repr, DecidableEq

/-- `Price::new()`. -/
def Price.new (T : Type) : Price T :=
  { value := none, waiters := none }

/-- `Price::from(value)`. -/
def Price.fromValue {T : Type} (value : T) : Price T :=
  { value := some value, waiters := none }

/-- `Price::add_waiter(waiter)`: append the sender to the waiter list,
creating the list if absent. -/
def Price.add_waiter {T : Type} (p : Price T) (waiter : Nat) : Price T :=
  match p.waiters with
  | some waiters => { p with waiters := some (waiters ++ [waiter]) }
  | none => { p with waiters := some [waiter] }

/-- The loop body of `Price::notify_waiters`: send `v.clone()` to each waiter
in list order, propagating the first `SendError` (the `?` operator) and
stopping there; `none` = some send blocked.  Returns the updated channel
heap and the loop's result. -/
def notifyLoop {T : Type} (chans : List (Chan T)) (ids : List Nat) (v : T) :
    Option (List (Chan T) × Except (SendError T) Unit) :=
  match ids with
  | [] => some (chans, .ok ())
  | id :: rest =>
    match chans[id]? with
    | none => some (chans, .error ⟨v⟩)
    | some c =>
      match c.send v with
      | none => none
      | some (.error ()) => some (chans, .error ⟨v⟩)
      | some (.ok c') => notifyLoop (chans.set id c') rest v

/-- `Price::notify_waiters(value)`: if waiters are present, send the value to
each of them in order; only on full success is the waiter list cleared
(`self.waiters = None`); an early `SendError` return leaves it untouched. -/
def Price.notify_waiters {T : Type} (p : Price T) (chans : List (Chan T)) (v : T) :
    Option (Price T × List (Chan T) × Except (SendError T) Unit) :=
  match p.waiters with
  | none => some (p, chans, .ok ())
  | some ws =>
    match notifyLoop chans ws v with
    | none => none
    | some (chans', .ok ()) => some ({ p with waiters := none }, chans', .ok ())
    | some (chans', .error e) => some (p, chans', .error e)

/-- `Price::update_price(value)`: store the value, then notify the waiters. -/
def Price.update_price {T : Type} (p : Price T) (chans : List (Chan T)) (v : T) :
    Option (Price T × List (Chan T) × Except (SendError T) Unit) :=
  Price.notify_waiters { p with value := some v } chans v

/-- Lookup in the association list modelling `HashMap<String, Price<T>>`. -/
def getKV {T : Type} (m : List (String × Price T)) (k : String) : Option (Price T) :=
  match m with
  | [] => none
  | (k', p) :: rest => if k' = k then some p else getKV rest k

/-- `HashMap::insert` (and writing back a `get_mut` mutation): replace the
binding for `k` if present, else append it. -/
def putKV {T : Type} (m : List (String × Price T)) (k : String) (p : Price T) :
    List (String × Price T) :=
  match m with
  | [] => [(k, p)]
  | (k', p') :: rest => if k' = k then (k, p) :: rest else (k', p') :: putKV rest k p

/-- Rust `ThreadUnsafe<T>` together with the channel heap: `hashmap` is the
`HashMap<String, Price<T>>` field, `chans` the ambient `mpsc` channels. -/
structure ThreadUnsafe (T : Type) where
  hashmap : List (String × Price T)
  chans : List (Chan T)
deriving Repr, DecidableEq

/-- `ThreadUnsafe::new()` (no channels exist yet). -/
def ThreadUnsafe.new (T : Type) : ThreadUnsafe T :=
  { hashmap := [], chans := [] }

/-- `ThreadUnsafe::put_price(symbol, value)`: update the existing entry (which
may notify waiters and can fail or block) or create a fresh `Price::from(value)`. -/
def ThreadUnsafe.put_price {T : Type} (st : ThreadUnsafe T) (symbol : String) (value : T) :
    Option (ThreadUnsafe T × Except (SendError T) Unit) :=
  match getKV st.hashmap symbol with
  | some price =>
    match price.update_price st.chans value with
    | none => none
    | some (p', chans', r) =>
      some ({ hashmap := putKV st.hashmap symbol p', chans := chans' }, r)
  | none =>
    some ({ st with hashmap := putKV st.hashmap symbol (Price.fromValue value) }, .ok ())

/-- `ThreadUnsafe::get_price(symbol)`: clone of the current value, if any.
Takes `&self` in Rust, hence no state is returned: the map is untouched. -/
def ThreadUnsafe.get_price {T : Type} (st : ThreadUnsafe T) (symbol : String) : Option T :=
  match getKV st.hashmap symbol with
  | some price => price.value
  | none => none

/-- `ThreadUnsafe::price_receiver(symbol)`: create a fresh `sync_channel(1)`,
register its sender on the entry (creating the entry if needed), return the
receiver (modelled by the new channel's heap index). -/
def ThreadUnsafe.price_receiver {T : Type} (st : ThreadUnsafe T) (symbol : String) :
    ThreadUnsafe T × Nat :=
  let id := st.chans.length
  let chans' := st.chans ++ [Chan.fresh T]
  match getKV st.hashmap symbol with
  | some price =>
    ({ hashmap := putKV st.hashmap symbol (price.add_waiter id), chans := chans' }, id)
  | none =>
    ({ hashmap := putKV st.hashmap symbol ((Price.new T).add_waiter id), chans := chans' }, id)

/-- Consuming a `Receiver` (the `rx.recv()` step of `next_price`): run
`Chan.recv` on channel `rid` of the heap. -/
def ThreadUnsafe.recvOn {T : Type} (st : ThreadUnsafe T) (rid : Nat) :
    RecvResult T × ThreadUnsafe T :=
  match st.chans[rid]? with
  | none => (.err, st)
  | some c =>
    let (r, c') := c.recv
    (r, { st with chans := st.chans.set rid c' })

/-- `ThreadUnsafe::next_price(symbol)` = `self.price_receiver(symbol).recv()`:
register a waiter and immediately block on its receiver. -/
def ThreadUnsafe.next_price {T : Type} (st : ThreadUnsafe T) (symbol : String) :
    RecvResult T × ThreadUnsafe T :=
  let (st', rid) := st.price_receiver symbol
  st'.recvOn rid

/-- A caller dropping its `Receiver` (e.g. abandoning a wait): the channel's
receiving half dies. -/
def ThreadUnsafe.dropReceiver {T : Type} (st : ThreadUnsafe T) (rid : Nat) : ThreadUnsafe T :=
  match st.chans[rid]? with
  | none => st
  | some c => { st with chans := st.chans.set rid { c with receiverAlive := false } }

/-- Dropping the `SyncSender` halves named by `ids`: each channel's sending
side is marked dead (buffered values survive, as in `mpsc`). -/
def killSenders {T : Type} (chans : List (Chan T)) (ids : List Nat) : List (Chan T) :=
  ids.foldl
    (fun cs id =>
      match cs[id]? with
      | none => cs
      | some c => cs.set id { c with senderAlive := false }) chans

/-- From the test `test_thread_unsafe_channel_closed`: administratively set the
entry's `waiters` to `None`; the dropped `SyncSender` halves mark their
channels' sending sides dead. -/
def ThreadUnsafe.clearWaiters {T : Type} (st : ThreadUnsafe T) (symbol : String) :
    ThreadUnsafe T :=
  match getKV st.hashmap symbol with
  | none => st
  | some price =>
    { hashmap := putKV st.hashmap symbol { price with waiters := none },
      chans := killSenders st.chans (price.waiters.getD []) }

/-- Modelled from the spec: removal of a single waiter registration without a
value ever being sent ("test/administrative clearing of waiters, or
equivalent lifecycle event", spec section 7) — the registration `rid` is removed
from the entry's waiter list and the corresponding sending half is dropped.
The source only exhibits the all-waiters version (`waiters = None` in its
tests); this is the same lifecycle event restricted to one waiter. -/
def ThreadUnsafe.dropWaiter {T : Type} (st : ThreadUnsafe T) (symbol : String) (rid : Nat) :
    ThreadUnsafe T :=
  match getKV st.hashmap symbol with
  | none => st
  | some price =>
    let ws' := (price.waiters.getD []).filter (fun i => i ≠ rid)
    { hashmap := putKV st.hashmap symbol { price with waiters := some ws' },
      chans :=
        match st.chans[rid]? with
        | none => st.chans
        | some c => st.chans.set rid { c with senderAlive := false } }

/-- Test fixture: two fresh waiters registered on "s". -/
def twoWaiters : ThreadUnsafe Nat :=
  ⟨[("s", ⟨none, some [0, 1]⟩)], [Chan.fresh Nat, Chan.fresh Nat]⟩

/-- Test fixture: waiters [0, 1, 2] on "s"; channel 1's receiver was dropped. -/
def midDead : ThreadUnsafe Nat :=
  ⟨[("s", ⟨none, some [0, 1, 2]⟩)],
    [Chan.fresh Nat, ⟨none, true, false, false⟩, Chan.fresh Nat]⟩

/-- Test fixture: a single waiter on "s" whose receiver was dropped. -/
def oneDead : ThreadUnsafe Nat :=
  ⟨[("s", ⟨none, some [0]⟩)], [⟨none, true, false, false⟩]⟩

/-- Test fixture: key "s" holds value 1, no waiters, no channels. -/
def hasValue : ThreadUnsafe Nat := ⟨[("s", ⟨some 1, none⟩)], []⟩

/-- States reachable from a fresh `ThreadUnsafe::new()` by `put_price` calls
that return success, `price_receiver` registrations (the registration half
of `next_price`/wait), and receiver consumption (its blocking half) — i.e.
every sequence of insert/observe/wait calls in which every insert succeeds. -/
inductive Reachable {T : Type} : ThreadUnsafe T → Prop where
  | init : Reachable (ThreadUnsafe.new T)
  | putOk {st st' : ThreadUnsafe T} {s : String} {v : T} : Reachable st →
      st.put_price s v = some (st', .ok ()) → Reachable st'
  | observe {st : ThreadUnsafe T} (s : String) : Reachable st →
      Reachable (st.price_receiver s).1
  | recvStep {st : ThreadUnsafe T} (rid : Nat) : Reachable st →
      Reachable (st.recvOn rid).2

/-- Structural invariant of the map: keys are unique, every registered waiter
is a valid channel index, no channel is registered twice (within a key or
across keys), and — the delivery-uniqueness property — no registered waiter
channel has ever been sent a value. -/
structure Inv {T : Type} (st : ThreadUnsafe T) : Prop where
  keys_nodup : (st.hashmap.map Prod.fst).Nodup
  valid : ∀ kp ∈ st.hashmap, ∀ id ∈ kp.2.waiters.getD [], id < st.chans.length
  nodup_within : ∀ kp ∈ st.hashmap, (kp.2.waiters.getD []).Nodup
  disj : st.hashmap.Pairwise
    (fun a b => ∀ id ∈ a.2.waiters.getD [], id ∉ b.2.waiters.getD [])
  fresh : ∀ kp ∈ st.hashmap, ∀ id ∈ kp.2.waiters.getD [], ∀ c, st.chans[id]? = some c →
    c.everSent = false

/-- Traces from a fresh map that never insert at key `k` but may do anything
else: inserts at other keys (with any outcome), registrations at any key
(`k` included), receiver consumption, receiver drops, administrative waiter
clearing and single-waiter removal. -/
inductive ReachAvoid {T : Type} (k : String) : ThreadUnsafe T → Prop where
  | init : ReachAvoid k (ThreadUnsafe.new T)
  | put {st st' : ThreadUnsafe T} {s : String} {v : T} {r} : s ≠ k → ReachAvoid k st →
      st.put_price s v = some (st', r) → ReachAvoid k st'
  | observe {st : ThreadUnsafe T} (s : String) : ReachAvoid k st →
      ReachAvoid k (st.price_receiver s).1
  | recvStep {st : ThreadUnsafe T} (rid : Nat) : ReachAvoid k st →
      ReachAvoid k (st.recvOn rid).2
  | dropR {st : ThreadUnsafe T} (rid : Nat) : ReachAvoid k st →
      ReachAvoid k (st.dropReceiver rid)
  | clearW {st : ThreadUnsafe T} (s : String) : ReachAvoid k st →
      ReachAvoid k (st.clearWaiters s)
  | dropW {st : ThreadUnsafe T} (s : String) (rid : Nat) : ReachAvoid k st →
      ReachAvoid k (st.dropWaiter s rid)

/-! ### Helper lemmas about the delivery loop -/

/-- `notifyLoop` never changes the number of channels. -/
theorem notifyLoop_length {T : Type} {v : T} {ids : List Nat} :
    ∀ {chans chans' : List (Chan T)} {r}, notifyLoop chans ids v = some (chans', r) →
      chans'.length = chans.length := by
  induction ids with
  | nil =>
    intro chans chans' r h
    simp only [notifyLoop, Option.some.injEq, Prod.mk.injEq] at h
    rw [h.1]
  | cons id rest ih =>
    intro chans chans' r h
    cases hc : chans[id]? with
    | none =>
      simp only [notifyLoop, hc, Option.some.injEq, Prod.mk.injEq] at h
      rw [h.1]
    | some c =>
      cases hs : c.send v with
      | none =>
        simp only [notifyLoop, hc, hs] at h
        exact Option.noConfusion h
      | some res =>
        cases res with
        | error u =>
          cases u
          simp only [notifyLoop, hc, hs, Option.some.injEq, Prod.mk.injEq] at h
          rw [h.1]
        | ok c2 =>
          simp only [notifyLoop, hc, hs] at h
          have := ih h
          simpa using this

/-- Channels not in the id list are untouched by `notifyLoop`, whatever its
outcome. -/
theorem notifyLoop_not_mem {T : Type} {v : T} {ids : List Nat} :
    ∀ {chans chans' : List (Chan T)} {r}, notifyLoop chans ids v = some (chans', r) →
      ∀ j, j ∉ ids → chans'[j]? = chans[j]? := by
  induction ids with
  | nil =>
    intro chans chans' r h j _
    simp only [notifyLoop, Option.some.injEq, Prod.mk.injEq] at h
    rw [h.1]
  | cons id rest ih =>
    intro chans chans' r h j hj
    have hjid : j ≠ id := fun he => hj (he ▸ List.mem_cons_self id rest)
    have hjrest : j ∉ rest := fun he => hj (List.mem_cons_of_mem id he)
    cases hc : chans[id]? with
    | none =>
      simp only [notifyLoop, hc, Option.some.injEq, Prod.mk.injEq] at h
      rw [h.1]
    | some c =>
      cases hs : c.send v with
      | none =>
        simp only [notifyLoop, hc, hs] at h
        exact Option.noConfusion h
      | some res =>
        cases res with
        | error u =>
          cases u
          simp only [notifyLoop, hc, hs, Option.some.injEq, Prod.mk.injEq] at h
          rw [h.1]
        | ok c2 =>
          simp only [notifyLoop, hc, hs] at h
          have := ih h j hjrest
          rw [this, List.getElem?_set_ne (Ne.symm hjid)]

/-- Any error returned by `notifyLoop` carries exactly the value being
delivered. -/
theorem notifyLoop_error_val {T : Type} {v : T} {ids : List Nat} :
    ∀ {chans chans' : List (Chan T)} {e}, notifyLoop chans ids v = some (chans', .error e) →
      e = ⟨v⟩ := by
  induction ids with
  | nil =>
    intro chans chans' e h
    simp only [notifyLoop, Option.some.injEq, Prod.mk.injEq] at h
    exact absurd h.2 (by simp)
  | cons id rest ih =>
    intro chans chans' e h
    cases hc : chans[id]? with
    | none =>
      simp only [notifyLoop, hc, Option.some.injEq, Prod.mk.injEq, Except.error.injEq] at h
      exact h.2.symm
    | some c =>
      cases hs : c.send v with
      | none =>
        simp only [notifyLoop, hc, hs] at h
        exact Option.noConfusion h
      | some res =>
        cases res with
        | error u =>
          cases u
          simp only [notifyLoop, hc, hs, Option.some.injEq, Prod.mk.injEq,
            Except.error.injEq] at h
          exact h.2.symm
        | ok c2 =>
          simp only [notifyLoop, hc, hs] at h
          exact ih h

/-- If all listed channels are distinct, open (receiver alive) and empty, the
delivery loop succeeds, buffers the value on exactly the listed channels and
touches no other channel. -/
theorem notifyLoop_ok {T : Type} {v : T} {ids : List Nat} :
    ∀ {chans : List (Chan T)}, ids.Nodup →
      (∀ id ∈ ids, ∃ c, chans[id]? = some c ∧ c.receiverAlive = true ∧ c.buf = none) →
      ∃ chans', notifyLoop chans ids v = some (chans', .ok ()) ∧
        (∀ id ∈ ids, chans'[id]? =
          (chans[id]?).map (fun c => { c with buf := some v, everSent := true })) ∧
        ∀ j, j ∉ ids → chans'[j]? = chans[j]? := by
  induction ids with
  | nil =>
    intro chans _ _
    exact ⟨chans, rfl, by simp, fun j _ => rfl⟩
  | cons id rest ih =>
    intro chans hnd hopen
    obtain ⟨c, hc, hrecv, hbuf⟩ := hopen id (List.mem_cons_self id rest)
    have hsend : c.send v = some (.ok { c with buf := some v, everSent := true }) := by
      simp [Chan.send, hrecv, hbuf]
    have hid_not : id ∉ rest := (List.nodup_cons.mp hnd).1
    have hnd' : rest.Nodup := (List.nodup_cons.mp hnd).2
    have hlt : id < chans.length := (List.getElem?_eq_some.mp hc).1
    set c2 : Chan T := { c with buf := some v, everSent := true } with hc2
    have hopen' : ∀ i ∈ rest, ∃ d, (chans.set id c2)[i]? = some d ∧
        d.receiverAlive = true ∧ d.buf = none := by
      intro i hi
      have hne : id ≠ i := fun he => hid_not (he ▸ hi)
      rw [List.getElem?_set_ne hne]
      exact hopen i (List.mem_cons_of_mem id hi)
    obtain ⟨chans', hloop, hin, hout⟩ := ih hnd' hopen'
    refine ⟨chans', ?_, ?_, ?_⟩
    · simp only [notifyLoop, hc, hsend]
      exact hloop
    · intro i hi
      rcases List.mem_cons.mp hi with he | hi'
      · subst he
        rw [hout i hid_not, List.getElem?_set_eq_of_lt c2 hlt, hc]
        rfl
      · have hne : id ≠ i := fun he => hid_not (he ▸ hi')
        rw [hin i hi', List.getElem?_set_ne hne]
    · intro j hj
      have hjid : id ≠ j := fun he => hj (he ▸ List.mem_cons_self id rest)
      have hjrest : j ∉ rest := fun he => hj (List.mem_cons_of_mem id he)
      rw [hout j hjrest, List.getElem?_set_ne hjid]

/-- If the waiter list is `ws1 ++ bad :: ws2` with the `ws1` channels distinct,
open and empty but channel `bad` closed (receiver dropped) or absent, the
loop delivers to every channel of `ws1`, then fails with `SendError(v)`;
every channel outside `ws1` — in particular every one of `ws2` — is left
untouched. -/
theorem notifyLoop_fail {T : Type} {v : T} {ws1 : List Nat} {bad : Nat} {ws2 : List Nat} :
    ∀ {chans : List (Chan T)}, (ws1 ++ bad :: ws2).Nodup →
      (∀ id ∈ ws1, ∃ c, chans[id]? = some c ∧ c.receiverAlive = true ∧ c.buf = none) →
      (∀ cb, chans[bad]? = some cb → cb.receiverAlive = false) →
      ∃ chans', notifyLoop chans (ws1 ++ bad :: ws2) v = some (chans', .error ⟨v⟩) ∧
        (∀ id ∈ ws1, chans'[id]? =
          (chans[id]?).map (fun c => { c with buf := some v, everSent := true })) ∧
        ∀ j, j ∉ ws1 → chans'[j]? = chans[j]? := by
  induction ws1 with
  | nil =>
    intro chans _ _ hbad
    cases hcb : chans[bad]? with
    | none =>
      exact ⟨chans, by simp only [List.nil_append, notifyLoop, hcb], by simp, fun j _ => rfl⟩
    | some cb =>
      have hdead := hbad cb hcb
      have hsend : cb.send v = some (.error ()) := by simp [Chan.send, hdead]
      exact ⟨chans, by simp only [List.nil_append, notifyLoop, hcb, hsend], by simp,
        fun j _ => rfl⟩
  | cons id rest ih =>
    intro chans hnd hopen hbad
    obtain ⟨c, hc, hrecv, hbuf⟩ := hopen id (List.mem_cons_self id rest)
    have hsend : c.send v = some (.ok { c with buf := some v, everSent := true }) := by
      simp [Chan.send, hrecv, hbuf]
    rw [List.cons_append, List.nodup_cons] at hnd
    have hid_not_all : id ∉ rest ++ bad :: ws2 := hnd.1
    have hid_not : id ∉ rest := fun hi => hid_not_all (List.mem_append_left _ hi)
    have hid_ne_bad : id ≠ bad := fun he =>
      hid_not_all (List.mem_append_right _ (he ▸ List.mem_cons_self bad ws2))
    have hlt : id < chans.length := (List.getElem?_eq_some.mp hc).1
    set c2 : Chan T := { c with buf := some v, everSent := true } with hc2
    have hopen' : ∀ i ∈ rest, ∃ d, (chans.set id c2)[i]? = some d ∧
        d.receiverAlive = true ∧ d.buf = none := by
      intro i hi
      have hne : id ≠ i := fun he => hid_not (he ▸ hi)
      rw [List.getElem?_set_ne hne]
      exact hopen i (List.mem_cons_of_mem id hi)
    have hbad' : ∀ cb, (chans.set id c2)[bad]? = some cb → cb.receiverAlive = false := by
      rw [List.getElem?_set_ne hid_ne_bad]
      exact hbad
    obtain ⟨chans', hloop, hin, hout⟩ := ih hnd.2 hopen' hbad'
    refine ⟨chans', ?_, ?_, ?_⟩
    · rw [List.cons_append]
      simp only [notifyLoop, hc, hsend]
      exact hloop
    · intro i hi
      rcases List.mem_cons.mp hi with he | hi'
      · subst he
        rw [hout i hid_not, List.getElem?_set_eq_of_lt c2 hlt, hc]
        rfl
      · have hne : id ≠ i := fun he => hid_not (he ▸ hi')
        rw [hin i hi', List.getElem?_set_ne hne]
    · intro j hj
      have hjid : id ≠ j := fun he => hj (he ▸ List.mem_cons_self id rest)
      have hjrest : j ∉ rest := fun he => hj (List.mem_cons_of_mem id he)
      rw [hout j hjrest, List.getElem?_set_ne hjid]

/-! ### Helper lemmas about the association-list map -/

theorem getKV_putKV_self {T : Type} {m : List (String × Price T)} {k : String} {p : Price T} :
    getKV (putKV m k p) k = some p := by
  induction m with
  | nil => simp [putKV, getKV]
  | cons kp rest ih =>
    obtain ⟨k0, p0⟩ := kp
    simp only [putKV]
    split
    · simp [getKV]
    · next hk =>
      simp only [getKV, if_neg hk]
      exact ih

theorem getKV_putKV_ne {T : Type} {m : List (String × Price T)} {k k' : String} {p : Price T}
    (h : k' ≠ k) : getKV (putKV m k p) k' = getKV m k' := by
  induction m with
  | nil => simp [putKV, getKV, Ne.symm h]
  | cons kp rest ih =>
    obtain ⟨k0, p0⟩ := kp
    simp only [putKV]
    split
    · next hk =>
      subst hk
      simp only [getKV, if_neg (Ne.symm h)]
    · simp only [getKV]
      split
      · rfl
      · exact ih

theorem mem_putKV {T : Type} {m : List (String × Price T)} {k : String} {p : Price T}
    {kp : String × Price T} (h : kp ∈ putKV m k p) : kp = (k, p) ∨ kp ∈ m := by
  induction m with
  | nil => simpa [putKV] using h
  | cons kq rest ih =>
    obtain ⟨k0, p0⟩ := kq
    simp only [putKV] at h
    split at h
    · rcases List.mem_cons.mp h with he | hm
      · exact Or.inl he
      · exact Or.inr (List.mem_cons_of_mem _ hm)
    · rcases List.mem_cons.mp h with he | hm
      · exact Or.inr (he ▸ List.mem_cons_self _ _)
      · rcases ih hm with h1 | h2
        · exact Or.inl h1
        · exact Or.inr (List.mem_cons_of_mem _ h2)

/-- Under key-uniqueness, a member of `putKV m k p` is either the new binding
or an old binding for a different key. -/
theorem mem_putKV_nodup {T : Type} {m : List (String × Price T)} {k : String} {p : Price T}
    {kp : String × Price T} (hnd : (m.map Prod.fst).Nodup) (h : kp ∈ putKV m k p) :
    kp = (k, p) ∨ (kp ∈ m ∧ kp.1 ≠ k) := by
  induction m with
  | nil =>
    simp only [putKV, List.mem_singleton] at h
    exact Or.inl h
  | cons kq rest ih =>
    obtain ⟨k0, p0⟩ := kq
    simp only [List.map_cons, List.nodup_cons] at hnd
    simp only [putKV] at h
    split at h
    · next hk =>
      subst hk
      rcases List.mem_cons.mp h with he | hm
      · exact Or.inl he
      · refine Or.inr ⟨List.mem_cons_of_mem _ hm, ?_⟩
        intro he
        exact hnd.1 (he ▸ List.mem_map_of_mem Prod.fst hm)
    · next hk =>
      rcases List.mem_cons.mp h with he | hm
      · exact Or.inr ⟨he ▸ List.mem_cons_self _ _, by rw [he]; exact hk⟩
      · rcases ih hnd.2 hm with h1 | ⟨h2, h3⟩
        · exact Or.inl h1
        · exact Or.inr ⟨List.mem_cons_of_mem _ h2, h3⟩

theorem keys_putKV {T : Type} {m : List (String × Price T)} {k : String} {p : Price T} :
    (putKV m k p).map Prod.fst =
      if k ∈ m.map Prod.fst then m.map Prod.fst else m.map Prod.fst ++ [k] := by
  induction m with
  | nil => simp [putKV]
  | cons kq rest ih =>
    obtain ⟨k0, p0⟩ := kq
    simp only [putKV]
    split
    · next hk =>
      subst hk
      simp
    · next hk =>
      simp only [List.map_cons, ih]
      by_cases hmem : k ∈ rest.map Prod.fst
      · simp [hmem, Ne.symm hk]
      · simp [hmem, Ne.symm hk]

theorem keys_nodup_putKV {T : Type} {m : List (String × Price T)} {k : String} {p : Price T}
    (hnd : (m.map Prod.fst).Nodup) : ((putKV m k p).map Prod.fst).Nodup := by
  rw [keys_putKV]
  by_cases hmem : k ∈ m.map Prod.fst
  · simpa [hmem] using hnd
  · simp only [if_neg hmem]
    refine List.Nodup.append hnd (List.nodup_singleton k) ?_
    intro a ha hb
    rw [List.mem_singleton] at hb
    exact hmem (hb ▸ ha)

theorem getKV_eq_some_mem {T : Type} {m : List (String × Price T)} {k : String} {p : Price T}
    (h : getKV m k = some p) : (k, p) ∈ m := by
  induction m with
  | nil => simp [getKV] at h
  | cons kq rest ih =>
    obtain ⟨k0, p0⟩ := kq
    simp only [getKV] at h
    split at h
    · next hk =>
      subst hk
      rw [Option.some.injEq] at h
      exact h ▸ List.mem_cons_self _ _
    · exact List.mem_cons_of_mem _ (ih h)

theorem getKV_eq_none_not_mem {T : Type} {m : List (String × Price T)} {k : String}
    (h : getKV m k = none) : ∀ p, (k, p) ∉ m := by
  induction m with
  | nil => simp
  | cons kq rest ih =>
    obtain ⟨k0, p0⟩ := kq
    simp only [getKV] at h
    split at h
    · exact Option.noConfusion h
    · next hk =>
      intro p hp
      rcases List.mem_cons.mp hp with he | hm
      · exact hk (congrArg Prod.fst he).symm
      · exact ih h p hm

/-- A `Pairwise` relation survives `putKV` when the new binding is related in
both directions to every old binding of a different key (key-uniqueness
assumed). -/
theorem pairwise_putKV {T : Type} {R : (String × Price T) → (String × Price T) → Prop}
    {m : List (String × Price T)} {k : String} {p : Price T}
    (hnd : (m.map Prod.fst).Nodup) (hm : m.Pairwise R)
    (hR : ∀ kp ∈ m, kp.1 ≠ k → R (k, p) kp ∧ R kp (k, p)) :
    (putKV m k p).Pairwise R := by
  induction m with
  | nil => simp [putKV]
  | cons kq rest ih =>
    obtain ⟨k0, p0⟩ := kq
    simp only [List.map_cons, List.nodup_cons] at hnd
    rw [List.pairwise_cons] at hm
    simp only [putKV]
    split
    · next hk =>
      subst hk
      rw [List.pairwise_cons]
      refine ⟨?_, hm.2⟩
      intro b hb
      have hbk : b.1 ≠ k0 := by
        intro he
        exact hnd.1 (he ▸ List.mem_map_of_mem Prod.fst hb)
      exact (hR b (List.mem_cons_of_mem _ hb) hbk).1
    · next hk =>
      rw [List.pairwise_cons]
      constructor
      · intro b hb
        rcases mem_putKV hb with he | hbm
        · subst he
          exact (hR (k0, p0) (List.mem_cons_self _ _) hk).2
        · exact hm.1 b hbm
      · exact ih hnd.2 hm.2 fun kp hkp hne => hR kp (List.mem_cons_of_mem _ hkp) hne

/-! ### Operation-level helper lemmas -/

/-- Full description of a successful `put_price` on an entry whose registered
waiter channels are distinct, open and empty: the entry's value becomes `v`,
its waiter list is cleared, `v` is buffered on exactly the registered
channels, and nothing else changes. -/
theorem put_price_delivers {T : Type} {st : ThreadUnsafe T} {symbol : String} {v : T}
    {price : Price T} {ws : List Nat}
    (hget : getKV st.hashmap symbol = some price)
    (hws : price.waiters = some ws)
    (hnd : ws.Nodup)
    (hopen : ∀ id ∈ ws, ∃ c, st.chans[id]? = some c ∧ c.receiverAlive = true ∧ c.buf = none) :
    ∃ chans', st.put_price symbol v =
        some ({ hashmap := putKV st.hashmap symbol { value := some v, waiters := none },
                chans := chans' }, .ok ()) ∧
      (∀ id ∈ ws, chans'[id]? =
        (st.chans[id]?).map (fun c => { c with buf := some v, everSent := true })) ∧
      ∀ j, j ∉ ws → chans'[j]? = st.chans[j]? := by
  obtain ⟨chans', hloop, hin, hout⟩ := notifyLoop_ok (v := v) hnd hopen
  refine ⟨chans', ?_, hin, hout⟩
  simp only [ThreadUnsafe.put_price, hget, Price.update_price, Price.notify_waiters, hws, hloop]

/-- A successful `put_price symbol v` rewrites the entry to
`⟨some v, no waiters⟩`, keeps the channel count, and touches only the old
waiter channels of that entry. -/
theorem put_price_ok_spec {T : Type} {st st' : ThreadUnsafe T} {symbol : String} {v : T}
    (h : st.put_price symbol v = some (st', .ok ())) :
    st'.hashmap = putKV st.hashmap symbol { value := some v, waiters := none } ∧
    st'.chans.length = st.chans.length ∧
    ∀ j, (∀ price, getKV st.hashmap symbol = some price → j ∉ price.waiters.getD []) →
      st'.chans[j]? = st.chans[j]? := by
  cases hget : getKV st.hashmap symbol with
  | none =>
    simp only [ThreadUnsafe.put_price, hget, Option.some.injEq, Prod.mk.injEq] at h
    rw [← h.1]
    exact ⟨rfl, rfl, fun j _ => rfl⟩
  | some price =>
    cases hws : price.waiters with
    | none =>
      simp only [ThreadUnsafe.put_price, hget, Price.update_price, Price.notify_waiters, hws,
        Option.some.injEq, Prod.mk.injEq] at h
      rw [← h.1]
      exact ⟨rfl, rfl, fun j _ => rfl⟩
    | some ws =>
      cases hloop : notifyLoop st.chans ws v with
      | none =>
        simp only [ThreadUnsafe.put_price, hget, Price.update_price, Price.notify_waiters, hws,
          hloop] at h
        exact Option.noConfusion h
      | some res =>
        obtain ⟨chans', r0⟩ := res
        cases r0 with
        | error e =>
          simp only [ThreadUnsafe.put_price, hget, Price.update_price, Price.notify_waiters,
            hws, hloop, Option.some.injEq, Prod.mk.injEq] at h
          exact absurd h.2 (by simp)
        | ok u =>
          cases u
          simp only [ThreadUnsafe.put_price, hget, Price.update_price, Price.notify_waiters,
            hws, hloop, Option.some.injEq, Prod.mk.injEq] at h
          rw [← h.1]
          refine ⟨rfl, notifyLoop_length hloop, ?_⟩
          intro j hj
          exact notifyLoop_not_mem hloop j (by simpa [hws] using hj price rfl)

/-- A failed `put_price symbol v` carries exactly `v` in its error, has
already stored `v` in the entry while leaving the waiter list untouched,
keeps the channel count, and touches only that entry's waiter channels. -/
theorem put_price_err_spec {T : Type} {st st' : ThreadUnsafe T} {symbol : String} {v : T}
    {e : SendError T} (h : st.put_price symbol v = some (st', .error e)) :
    e = ⟨v⟩ ∧ ∃ price ws, getKV st.hashmap symbol = some price ∧ price.waiters = some ws ∧
      st'.hashmap = putKV st.hashmap symbol { value := some v, waiters := some ws } ∧
      st'.chans.length = st.chans.length ∧
      ∀ j, j ∉ ws → st'.chans[j]? = st.chans[j]? := by
  cases hget : getKV st.hashmap symbol with
  | none =>
    simp only [ThreadUnsafe.put_price, hget, Option.some.injEq, Prod.mk.injEq] at h
    exact absurd h.2 (by simp)
  | some price =>
    cases hws : price.waiters with
    | none =>
      simp only [ThreadUnsafe.put_price, hget, Price.update_price, Price.notify_waiters, hws,
        Option.some.injEq, Prod.mk.injEq] at h
      exact absurd h.2 (by simp)
    | some ws =>
      cases hloop : notifyLoop st.chans ws v with
      | none =>
        simp only [ThreadUnsafe.put_price, hget, Price.update_price, Price.notify_waiters, hws,
          hloop] at h
        exact Option.noConfusion h
      | some res =>
        obtain ⟨chans', r0⟩ := res
        cases r0 with
        | ok u =>
          cases u
          simp only [ThreadUnsafe.put_price, hget, Price.update_price, Price.notify_waiters,
            hws, hloop, Option.some.injEq, Prod.mk.injEq] at h
          exact absurd h.2 (by simp)
        | error e0 =>
          simp only [ThreadUnsafe.put_price, hget, Price.update_price, Price.notify_waiters,
            hws, hloop, Option.some.injEq, Prod.mk.injEq, Except.error.injEq] at h
          obtain ⟨h1, h2⟩ := h
          subst h2
          refine ⟨notifyLoop_error_val hloop, price, ws, rfl, hws, ?_, ?_, ?_⟩
          · rw [← h1]
          · rw [← h1]
            exact notifyLoop_length hloop
          · intro j hj
            rw [← h1]
            exact notifyLoop_not_mem hloop j hj

/-- `put_price` at `symbol` leaves every other key's entry unchanged. -/
theorem put_price_other_keys {T : Type} {st st' : ThreadUnsafe T} {symbol k : String} {v : T}
    {r : Except (SendError T) Unit} (h : st.put_price symbol v = some (st', r))
    (hne : k ≠ symbol) : getKV st'.hashmap k = getKV st.hashmap k := by
  cases hget : getKV st.hashmap symbol with
  | none =>
    simp only [ThreadUnsafe.put_price, hget, Option.some.injEq, Prod.mk.injEq] at h
    rw [← h.1]
    exact getKV_putKV_ne hne
  | some price =>
    cases hup : price.update_price st.chans v with
    | none =>
      simp only [ThreadUnsafe.put_price, hget, hup] at h
      exact Option.noConfusion h
    | some res =>
      obtain ⟨p', chans', r0⟩ := res
      simp only [ThreadUnsafe.put_price, hget, hup, Option.some.injEq, Prod.mk.injEq] at h
      rw [← h.1]
      exact getKV_putKV_ne hne

/-- After any returning `put_price symbol v` (success or failure), the entry's
stored value is `v`. -/
theorem put_price_value {T : Type} {st st' : ThreadUnsafe T} {symbol : String} {v : T}
    {r : Except (SendError T) Unit} (h : st.put_price symbol v = some (st', r)) :
    st'.get_price symbol = some v := by
  cases r with
  | ok u =>
    cases u
    obtain ⟨h1, _, _⟩ := put_price_ok_spec h
    simp [ThreadUnsafe.get_price, h1, getKV_putKV_self]
  | error e =>
    obtain ⟨_, price, ws, _, _, h1, _, _⟩ := put_price_err_spec h
    simp [ThreadUnsafe.get_price, h1, getKV_putKV_self]

/-- `add_waiter` never changes the stored value. -/
theorem add_waiter_value {T : Type} (p : Price T) (w : Nat) :
    (p.add_waiter w).value = p.value := by
  cases hws : p.waiters <;> simp [Price.add_waiter, hws]

/-- `add_waiter` appends to the waiter list (creating it if absent). -/
theorem add_waiter_waiters {T : Type} (p : Price T) (w : Nat) :
    (p.add_waiter w).waiters = some (p.waiters.getD [] ++ [w]) := by
  cases hws : p.waiters <;> simp [Price.add_waiter, hws]

/-- The receiver returned by `price_receiver` names the channel created by the
call: the next free index of the heap. -/
theorem price_receiver_rid {T : Type} (st : ThreadUnsafe T) (s : String) :
    (st.price_receiver s).2 = st.chans.length := by
  cases hget : getKV st.hashmap s <;> simp [ThreadUnsafe.price_receiver, hget]

/-- `price_receiver` appends exactly one fresh channel to the heap. -/
theorem price_receiver_chans {T : Type} (st : ThreadUnsafe T) (s : String) :
    (st.price_receiver s).1.chans = st.chans ++ [Chan.fresh T] := by
  cases hget : getKV st.hashmap s <;> simp [ThreadUnsafe.price_receiver, hget]

/-- After `price_receiver s`, the entry for `s` keeps its value (absent for a
fresh entry) and its waiter list ends with the new registration. -/
theorem price_receiver_entry {T : Type} (st : ThreadUnsafe T) (s : String) :
    ∃ p', getKV (st.price_receiver s).1.hashmap s = some p' ∧
      p'.value = st.get_price s ∧
      p'.waiters = some ((match getKV st.hashmap s with
        | some price => price.waiters.getD []
        | none => []) ++ [st.chans.length]) := by
  cases hget : getKV st.hashmap s with
  | none =>
    refine ⟨(Price.new T).add_waiter st.chans.length, ?_, ?_, ?_⟩
    · simp [ThreadUnsafe.price_receiver, hget, getKV_putKV_self]
    · simp [add_waiter_value, Price.new, ThreadUnsafe.get_price, hget]
    · simp [add_waiter_waiters, Price.new]
  | some price =>
    refine ⟨price.add_waiter st.chans.length, ?_, ?_, ?_⟩
    · simp [ThreadUnsafe.price_receiver, hget, getKV_putKV_self]
    · simp [add_waiter_value, ThreadUnsafe.get_price, hget]
    · simp [add_waiter_waiters]

/-- `price_receiver` leaves other keys' entries unchanged. -/
theorem price_receiver_other_keys {T : Type} (st : ThreadUnsafe T) (s k : String)
    (hne : k ≠ s) : getKV (st.price_receiver s).1.hashmap k = getKV st.hashmap k := by
  cases hget : getKV st.hashmap s <;>
    simp [ThreadUnsafe.price_receiver, hget, getKV_putKV_ne hne]

/-- Registering a waiter never changes any observable value (`get_price`). -/
theorem get_price_price_receiver {T : Type} (st : ThreadUnsafe T) (s k : String) :
    (st.price_receiver s).1.get_price k = st.get_price k := by
  by_cases hk : k = s
  · subst hk
    obtain ⟨p', hp', hv, _⟩ := price_receiver_entry st k
    simp only [ThreadUnsafe.get_price, hp']
    exact hv
  · rw [ThreadUnsafe.get_price, price_receiver_other_keys st s k hk, ThreadUnsafe.get_price]

/-- Effect of `killSenders` channel by channel: listed channels lose their
sending half, all others are untouched. -/
theorem killSenders_getElem {T : Type} {ids : List Nat} :
    ∀ (chans : List (Chan T)) (j : Nat),
      (killSenders chans ids)[j]? =
        if j ∈ ids then (chans[j]?).map (fun c => { c with senderAlive := false })
        else chans[j]? := by
  induction ids with
  | nil => intro chans j; simp [killSenders]
  | cons a rest ih =>
    intro chans j
    have hstep : killSenders chans (a :: rest) =
        killSenders (match chans[a]? with
          | none => chans
          | some c => chans.set a { c with senderAlive := false }) rest := by
      simp [killSenders, List.foldl_cons]
    rw [hstep, ih]
    by_cases hj : j ∈ rest
    · rw [if_pos hj, if_pos (List.mem_cons_of_mem a hj)]
      by_cases hja : j = a
      · subst hja
        cases hc : chans[j]? with
        | none => simp [hc]
        | some c =>
          have hlt : j < chans.length := (List.getElem?_eq_some.mp hc).1
          simp [hc, List.getElem?_set_eq_of_lt _ hlt]
      · cases hc : chans[a]? with
        | none => simp
        | some c => simp [List.getElem?_set_ne (fun he => hja he.symm)]
    · rw [if_neg hj]
      by_cases hja : j = a
      · subst hja
        rw [if_pos (List.mem_cons_self j rest)]
        cases hc : chans[j]? with
        | none => simp [hc]
        | some c =>
          have hlt : j < chans.length := (List.getElem?_eq_some.mp hc).1
          simp [hc, List.getElem?_set_eq_of_lt _ hlt]
      · rw [if_neg (fun hm => (List.mem_cons.mp hm).elim hja hj)]
        cases hc : chans[a]? with
        | none => simp
        | some c => simp [List.getElem?_set_ne (fun he => hja he.symm)]

/-- `clearWaiters` on an existing entry: the entry keeps its value but loses
its waiter list, and the registered channels lose their sending halves. -/
theorem clearWaiters_spec {T : Type} {st : ThreadUnsafe T} {s : String} {price : Price T}
    (hget : getKV st.hashmap s = some price) :
    getKV (st.clearWaiters s).hashmap s = some { price with waiters := none } ∧
    ∀ j, (st.clearWaiters s).chans[j]? =
      if j ∈ price.waiters.getD [] then
        (st.chans[j]?).map (fun c => { c with senderAlive := false })
      else st.chans[j]? := by
  constructor
  · simp [ThreadUnsafe.clearWaiters, hget, getKV_putKV_self]
  · intro j
    simp only [ThreadUnsafe.clearWaiters, hget]
    exact killSenders_getElem st.chans j

/-- `clearWaiters` never changes any observable value. -/
theorem get_price_clearWaiters {T : Type} (st : ThreadUnsafe T) (s k : String) :
    (st.clearWaiters s).get_price k = st.get_price k := by
  cases hget : getKV st.hashmap s with
  | none => simp [ThreadUnsafe.clearWaiters, hget]
  | some price =>
    by_cases hk : k = s
    · subst hk
      simp [ThreadUnsafe.get_price, ThreadUnsafe.clearWaiters, hget, getKV_putKV_self]
    · simp [ThreadUnsafe.get_price, ThreadUnsafe.clearWaiters, hget, getKV_putKV_ne hk]

/-- `dropWaiter` never changes any observable value. -/
theorem get_price_dropWaiter {T : Type} (st : ThreadUnsafe T) (s k : String) (rid : Nat) :
    (st.dropWaiter s rid).get_price k = st.get_price k := by
  cases hget : getKV st.hashmap s with
  | none => simp [ThreadUnsafe.dropWaiter, hget]
  | some price =>
    by_cases hk : k = s
    · subst hk
      simp [ThreadUnsafe.get_price, ThreadUnsafe.dropWaiter, hget, getKV_putKV_self]
    · simp [ThreadUnsafe.get_price, ThreadUnsafe.dropWaiter, hget, getKV_putKV_ne hk]

/-- `recvOn` does not touch the map of entries. -/
theorem hashmap_recvOn {T : Type} (st : ThreadUnsafe T) (rid : Nat) :
    (st.recvOn rid).2.hashmap = st.hashmap := by
  cases hc : st.chans[rid]? with
  | none => simp [ThreadUnsafe.recvOn, hc]
  | some c => simp [ThreadUnsafe.recvOn, hc]

/-- `dropReceiver` does not touch the map of entries. -/
theorem hashmap_dropReceiver {T : Type} (st : ThreadUnsafe T) (rid : Nat) :
    (st.dropReceiver rid).hashmap = st.hashmap := by
  cases hc : st.chans[rid]? with
  | none => simp [ThreadUnsafe.dropReceiver, hc]
  | some c => simp [ThreadUnsafe.dropReceiver, hc]

/-- The outcome of `recvOn` as a function of the channel's state. -/
theorem recvOn_result {T : Type} {st : ThreadUnsafe T} {rid : Nat} {c : Chan T}
    (hc : st.chans[rid]? = some c) :
    (st.recvOn rid).1 = (match c.buf with
      | some v => .ok v
      | none => if c.senderAlive then RecvResult.blocked else .err) := by
  simp only [ThreadUnsafe.recvOn, hc, Chan.recv]
  cases hb : c.buf with
  | some v => simp
  | none => by_cases hs : c.senderAlive <;> simp [hs]

/-! ### Reachable states and the delivery-uniqueness invariant -/

theorem disj_symm {T : Type} :
    Symmetric (fun (a b : String × Price T) =>
      ∀ id ∈ a.2.waiters.getD [], id ∉ b.2.waiters.getD []) := by
  intro a b h id hidb hida
  exact h id hida hidb

theorem inv_init {T : Type} : Inv (ThreadUnsafe.new T) := by
  refine ⟨?_, ?_, ?_, ?_, ?_⟩ <;> simp [ThreadUnsafe.new]

theorem inv_putOk {T : Type} {st st' : ThreadUnsafe T} {s : String} {v : T}
    (hinv : Inv st) (h : st.put_price s v = some (st', .ok ())) : Inv st' := by
  obtain ⟨hmap, hlen, hframe⟩ := put_price_ok_spec h
  have hmem : ∀ kp, kp ∈ st'.hashmap →
      kp = (s, ({ value := some v, waiters := none } : Price T)) ∨
      (kp ∈ st.hashmap ∧ kp.1 ≠ s) := by
    intro kp hkp
    exact mem_putKV_nodup hinv.keys_nodup (hmap ▸ hkp)
  have hchan_frame : ∀ kp ∈ st.hashmap, kp.1 ≠ s →
      ∀ id ∈ kp.2.waiters.getD [], st'.chans[id]? = st.chans[id]? := by
    intro kp hkp hne id hid
    refine hframe id ?_
    intro price hprice
    intro hmem'
    have hpin : (s, price) ∈ st.hashmap := getKV_eq_some_mem hprice
    have hkp_ne : kp ≠ (s, price) := by
      intro he
      exact hne (congrArg Prod.fst he)
    have := (hinv.disj.forall disj_symm) hkp hpin hkp_ne
    exact this id hid hmem'
  refine ⟨?_, ?_, ?_, ?_, ?_⟩
  · rw [hmap]
    exact keys_nodup_putKV hinv.keys_nodup
  · intro kp hkp id hid
    rcases hmem kp hkp with he | ⟨hold, _⟩
    · rw [he] at hid
      simp at hid
    · rw [hlen]
      exact hinv.valid kp hold id hid
  · intro kp hkp
    rcases hmem kp hkp with he | ⟨hold, _⟩
    · rw [he]
      simp
    · exact hinv.nodup_within kp hold
  · rw [hmap]
    refine pairwise_putKV hinv.keys_nodup hinv.disj ?_
    intro kp _ _
    constructor
    · intro id hid
      simp at hid
    · intro id _ hmem'
      simp at hmem'
  · intro kp hkp id hid c hc
    rcases hmem kp hkp with he | ⟨hold, hne⟩
    · rw [he] at hid
      simp at hid
    · rw [hchan_frame kp hold hne id hid] at hc
      exact hinv.fresh kp hold id hid c hc

theorem inv_observe {T : Type} {st : ThreadUnsafe T} (s : String)
    (hinv : Inv st) : Inv (st.price_receiver s).1 := by
  set n := st.chans.length with hn
  have hchans : (st.price_receiver s).1.chans = st.chans ++ [Chan.fresh T] :=
    price_receiver_chans st s
  have hlen : (st.price_receiver s).1.chans.length = n + 1 := by
    rw [hchans]; simp
  have hget_old : ∀ j, j < n → (st.price_receiver s).1.chans[j]? = st.chans[j]? := by
    intro j hj
    rw [hchans]
    exact List.getElem?_append_left hj
  have hget_new : (st.price_receiver s).1.chans[n]? = some (Chan.fresh T) := by
    rw [hchans]
    exact List.getElem?_concat_length st.chans (Chan.fresh T)
  -- the updated entry and its waiters
  cases hget : getKV st.hashmap s with
  | none =>
    have hmap : (st.price_receiver s).1.hashmap =
        putKV st.hashmap s ((Price.new T).add_waiter n) := by
      simp [ThreadUnsafe.price_receiver, hget, hn]
    have hids : (((Price.new T).add_waiter n).waiters.getD []) = [n] := by
      simp [Price.new, Price.add_waiter]
    have hmem : ∀ kp, kp ∈ (st.price_receiver s).1.hashmap →
        kp = (s, (Price.new T).add_waiter n) ∨ (kp ∈ st.hashmap ∧ kp.1 ≠ s) := by
      intro kp hkp
      exact mem_putKV_nodup hinv.keys_nodup (hmap ▸ hkp)
    refine ⟨?_, ?_, ?_, ?_, ?_⟩
    · rw [hmap]
      exact keys_nodup_putKV hinv.keys_nodup
    · intro kp hkp id hid
      rcases hmem kp hkp with he | ⟨hold, _⟩
      · rw [he] at hid
        simp only [hids, List.mem_singleton] at hid
        rw [hid, hlen]
        exact Nat.lt_succ_self n
      · rw [hlen]
        exact Nat.lt_succ_of_lt (hinv.valid kp hold id hid)
    · intro kp hkp
      rcases hmem kp hkp with he | ⟨hold, _⟩
      · rw [he]
        simp only [hids]
        exact List.nodup_singleton n
      · exact hinv.nodup_within kp hold
    · rw [hmap]
      refine pairwise_putKV hinv.keys_nodup hinv.disj ?_
      intro kp hkp _
      constructor
      · intro id hid
        simp only [hids, List.mem_singleton] at hid
        intro hmem'
        exact absurd (hinv.valid kp hkp id hmem') (by rw [hid]; exact Nat.lt_irrefl n)
      · intro id hid
        simp only [hids, List.mem_singleton]
        intro he
        exact absurd (hinv.valid kp hkp id hid) (by rw [he]; exact Nat.lt_irrefl n)
    · intro kp hkp id hid c hc
      rcases hmem kp hkp with he | ⟨hold, _⟩
      · rw [he] at hid
        simp only [hids, List.mem_singleton] at hid
        rw [hid] at hc
        rw [hget_new] at hc
        cases hc
        rfl
      · have hidlt : id < n := hinv.valid kp hold id hid
        rw [hget_old id hidlt] at hc
        exact hinv.fresh kp hold id hid c hc
  | some price =>
    have hmap : (st.price_receiver s).1.hashmap =
        putKV st.hashmap s (price.add_waiter n) := by
      simp [ThreadUnsafe.price_receiver, hget, hn]
    have hids : ((price.add_waiter n).waiters.getD []) = price.waiters.getD [] ++ [n] :=
      by rw [add_waiter_waiters]; rfl
    have hsprice : (s, price) ∈ st.hashmap := getKV_eq_some_mem hget
    have hmem : ∀ kp, kp ∈ (st.price_receiver s).1.hashmap →
        kp = (s, price.add_waiter n) ∨ (kp ∈ st.hashmap ∧ kp.1 ≠ s) := by
      intro kp hkp
      exact mem_putKV_nodup hinv.keys_nodup (hmap ▸ hkp)
    refine ⟨?_, ?_, ?_, ?_, ?_⟩
    · rw [hmap]
      exact keys_nodup_putKV hinv.keys_nodup
    · intro kp hkp id hid
      rcases hmem kp hkp with he | ⟨hold, _⟩
      · rw [he] at hid
        simp only [hids, List.mem_append, List.mem_singleton] at hid
        rcases hid with hid | hid
        · rw [hlen]
          exact Nat.lt_succ_of_lt (hinv.valid _ hsprice id hid)
        · rw [hid, hlen]
          exact Nat.lt_succ_self n
      · rw [hlen]
        exact Nat.lt_succ_of_lt (hinv.valid kp hold id hid)
    · intro kp hkp
      rcases hmem kp hkp with he | ⟨hold, _⟩
      · rw [he]
        simp only [hids]
        refine List.Nodup.append (hinv.nodup_within _ hsprice) (List.nodup_singleton n) ?_
        intro a ha hb
        rw [List.mem_singleton] at hb
        exact absurd (hinv.valid _ hsprice a ha) (by rw [hb]; exact Nat.lt_irrefl n)
      · exact hinv.nodup_within kp hold
    · rw [hmap]
      refine pairwise_putKV hinv.keys_nodup hinv.disj ?_
      intro kp hkp hne
      have hkp_ne : kp ≠ (s, price) := by
        intro he
        exact hne (congrArg Prod.fst he)
      have hdisj := (hinv.disj.forall disj_symm) hsprice hkp hkp_ne.symm
      constructor
      · intro id hid
        simp only [hids, List.mem_append, List.mem_singleton] at hid
        rcases hid with hid | hid
        · exact hdisj id hid
        · intro hmem'
          exact absurd (hinv.valid kp hkp id hmem') (by rw [hid]; exact Nat.lt_irrefl n)
      · intro id hid
        simp only [hids, List.mem_append, List.mem_singleton]
        intro hmem'
        rcases hmem' with hm | hm
        · exact hdisj id hm hid
        · exact absurd (hinv.valid kp hkp id hid) (by rw [hm]; exact Nat.lt_irrefl n)
    · intro kp hkp id hid c hc
      rcases hmem kp hkp with he | ⟨hold, _⟩
      · rw [he] at hid
        simp only [hids, List.mem_append, List.mem_singleton] at hid
        rcases hid with hid | hid
        · have hidlt : id < n := hinv.valid _ hsprice id hid
          rw [hget_old id hidlt] at hc
          exact hinv.fresh _ hsprice id hid c hc
        · rw [hid, hget_new] at hc
          cases hc
          rfl
      · have hidlt : id < n := hinv.valid kp hold id hid
        rw [hget_old id hidlt] at hc
        exact hinv.fresh kp hold id hid c hc

theorem inv_recvOn {T : Type} {st : ThreadUnsafe T} (rid : Nat)
    (hinv : Inv st) : Inv (st.recvOn rid).2 := by
  cases hc0 : st.chans[rid]? with
  | none =>
    have : (st.recvOn rid).2 = st := by
      simp [ThreadUnsafe.recvOn, hc0]
    rw [this]
    exact hinv
  | some c0 =>
    have hmap : (st.recvOn rid).2.hashmap = st.hashmap := hashmap_recvOn st rid
    have hchans : (st.recvOn rid).2.chans = st.chans.set rid (c0.recv).2 := by
      simp only [ThreadUnsafe.recvOn, hc0]
    have hlen : (st.recvOn rid).2.chans.length = st.chans.length := by
      rw [hchans]; simp
    have hever : ((c0.recv).2).everSent = c0.everSent := by
      simp only [Chan.recv]
      cases hb : c0.buf with
      | some v => rfl
      | none => by_cases hs : c0.senderAlive <;> simp [hs]
    refine ⟨?_, ?_, ?_, ?_, ?_⟩
    · rw [hmap]; exact hinv.keys_nodup
    · intro kp hkp id hid
      rw [hlen]
      exact hinv.valid kp (hmap ▸ hkp) id hid
    · intro kp hkp
      exact hinv.nodup_within kp (hmap ▸ hkp)
    · rw [hmap]; exact hinv.disj
    · intro kp hkp id hid c hc
      rw [hchans] at hc
      by_cases hj : rid = id
      · subst hj
        have hlt : rid < st.chans.length := (List.getElem?_eq_some.mp hc0).1
        rw [List.getElem?_set_eq_of_lt _ hlt] at hc
        cases hc
        rw [hever]
        exact hinv.fresh kp (hmap ▸ hkp) rid hid c0 hc0
      · rw [List.getElem?_set_ne hj] at hc
        exact hinv.fresh kp (hmap ▸ hkp) id hid c hc

/-- `dropWaiter` filters the registration out of the entry's waiter list and
kills exactly that channel's sending half. -/
theorem dropWaiter_spec {T : Type} {st : ThreadUnsafe T} {s : String} {price : Price T}
    (hget : getKV st.hashmap s = some price) (rid : Nat) :
    getKV (st.dropWaiter s rid).hashmap s =
      some { price with
             waiters := some ((price.waiters.getD []).filter (fun i => i ≠ rid)) } ∧
    ∀ j, (st.dropWaiter s rid).chans[j]? =
      if rid = j then (st.chans[j]?).map (fun c => { c with senderAlive := false })
      else st.chans[j]? := by
  constructor
  · simp [ThreadUnsafe.dropWaiter, hget, getKV_putKV_self]
  · intro j
    simp only [ThreadUnsafe.dropWaiter, hget]
    by_cases hj : rid = j
    · subst hj
      cases hc : st.chans[rid]? with
      | none => simp [hc]
      | some c =>
        have hlt : rid < st.chans.length := (List.getElem?_eq_some.mp hc).1
        simp [hc, List.getElem?_set_eq_of_lt _ hlt]
    · cases hc : st.chans[rid]? with
      | none => simp [hc, hj]
      | some c => simp [hc, hj, List.getElem?_set_ne hj]

/-- A single freshly registered waiter: its wait is blocked now, and a
subsequent insert succeeds and hands it exactly the inserted value. -/
theorem registered_fresh_wait {T : Type} {st1 : ThreadUnsafe T} {s : String} {p' : Price T}
    {rid : Nat} (hget : getKV st1.hashmap s = some p') (hws : p'.waiters = some [rid])
    (hch : st1.chans[rid]? = some (Chan.fresh T)) (v2 : T) :
    (st1.recvOn rid).1 = .blocked ∧
    ∃ st2, st1.put_price s v2 = some (st2, .ok ()) ∧ (st2.recvOn rid).1 = .ok v2 := by
  constructor
  · rw [recvOn_result hch]
    rfl
  · have hopen : ∀ id ∈ [rid], ∃ c, st1.chans[id]? = some c ∧
        c.receiverAlive = true ∧ c.buf = none := by
      intro id hid
      rw [List.mem_singleton] at hid
      exact ⟨Chan.fresh T, hid ▸ hch, rfl, rfl⟩
    obtain ⟨chans', hput, hin, _⟩ :=
      put_price_delivers hget hws (List.nodup_singleton rid) hopen
    refine ⟨_, hput, ?_⟩
    have hc2 : (⟨putKV st1.hashmap s ⟨some v2, none⟩, chans'⟩ :
        ThreadUnsafe T).chans[rid]? =
        some ⟨some v2, true, true, true⟩ := by
      show chans'[rid]? = _
      rw [hin rid (List.mem_singleton.mpr rfl), hch]
      rfl
    rw [recvOn_result hc2]

/-- Every reachable state satisfies the invariant. -/
theorem reachable_inv {T : Type} {st : ThreadUnsafe T} (h : Reachable st) : Inv st := by
  induction h with
  | init => exact inv_init
  | putOk _ hput ih => exact inv_putOk ih hput
  | observe s _ ih => exact inv_observe s ih
  | recvStep rid _ ih => exact inv_recvOn rid ih

/-! ### The claims -/

/-- C1: for every entry whose registered waiter channels are all open (and,
as in every reachable state, distinct and not yet sent to), `put_price`
(insert) stores `v` in the entry, sends `v` to every currently registered
waiter — the waiters' channels, in registration order, each receive a buffered
copy of `v` and nobody else's channel is touched — then clears the waiter
list and returns success; in particular all `N = ws.length` waiters
registered before the single insert receive the same value `v`. -/
theorem C1_insert_delivers_to_all_waiters {T : Type} {st : ThreadUnsafe T} {symbol : String}
    {price : Price T} {ws : List Nat} (v : T)
    (hget : getKV st.hashmap symbol = some price)
    (hws : price.waiters = some ws)
    (hnd : ws.Nodup)
    (hopen : ∀ id ∈ ws, ∃ c, st.chans[id]? = some c ∧ c.receiverAlive = true ∧ c.buf = none) :
    ∃ st', st.put_price symbol v = some (st', .ok ()) ∧
      getKV st'.hashmap symbol = some { value := some v, waiters := none } ∧
      (∀ id ∈ ws, st'.chans[id]? =
        (st.chans[id]?).map (fun c => { c with buf := some v, everSent := true })) ∧
      (∀ j, j ∉ ws → st'.chans[j]? = st.chans[j]?) ∧
      (∀ k, k ≠ symbol → getKV st'.hashmap k = getKV st.hashmap k) := by
  obtain ⟨chans', hput, hin, hout⟩ := put_price_delivers hget hws hnd hopen
  refine ⟨_, hput, ?_, hin, hout, ?_⟩
  · exact getKV_putKV_self
  · intro k hk
    exact getKV_putKV_ne hk

/-- C1 witness: two fresh waiters on "s", insert 7: both channels receive 7,
the entry holds 7 with no waiters, and the insert returns success. -/
theorem C1_witness :
    getKV twoWaiters.hashmap "s" = some ⟨none, some [0, 1]⟩ ∧
    ∃ st', twoWaiters.put_price "s" 7 = some (st', .ok ()) ∧
      getKV st'.hashmap "s" = some ⟨some 7, none⟩ ∧
      (∀ id ∈ [0, 1], st'.chans[id]? =
        (twoWaiters.chans[id]?).map (fun c => { c with buf := some 7, everSent := true })) ∧
      (∀ j, j ∉ [0, 1] → st'.chans[j]? = twoWaiters.chans[j]?) ∧
      (∀ k, k ≠ "s" → getKV st'.hashmap k = getKV twoWaiters.hashmap k) := by
  refine ⟨rfl, @C1_insert_delivers_to_all_waiters Nat twoWaiters "s" ⟨none, some [0, 1]⟩
    [0, 1] 7 rfl rfl (by decide) ?_⟩
  intro id hid
  rcases List.mem_cons.mp hid with h0 | hid
  · exact ⟨Chan.fresh Nat, by rw [h0]; rfl, rfl, rfl⟩
  · rw [List.mem_singleton] at hid
    exact ⟨Chan.fresh Nat, by rw [hid]; rfl, rfl, rfl⟩

/-- C3: if the registered waiter list is `ws1 ++ bad :: ws2` where the `ws1`
channels are open (and fresh) but channel `bad` is closed (its receiver was
dropped), the insert returns the error carrying exactly `v`, the waiters
before the failing one did receive `v`, and delivery is aborted for every
waiter after it: their channels are completely untouched. -/
theorem C3_fail_fast_on_closed_waiter {T : Type} {st : ThreadUnsafe T} {symbol : String}
    {price : Price T} {ws1 : List Nat} {bad : Nat} {ws2 : List Nat} (v : T)
    (hget : getKV st.hashmap symbol = some price)
    (hws : price.waiters = some (ws1 ++ bad :: ws2))
    (hnd : (ws1 ++ bad :: ws2).Nodup)
    (hopen : ∀ id ∈ ws1, ∃ c, st.chans[id]? = some c ∧ c.receiverAlive = true ∧ c.buf = none)
    (hbad : ∀ cb, st.chans[bad]? = some cb → cb.receiverAlive = false) :
    ∃ st', st.put_price symbol v = some (st', .error ⟨v⟩) ∧
      (∀ id ∈ ws2, st'.chans[id]? = st.chans[id]?) ∧
      (∀ id ∈ ws1, st'.chans[id]? =
        (st.chans[id]?).map (fun c => { c with buf := some v, everSent := true })) := by
  obtain ⟨chans', hloop, hin, hout⟩ := notifyLoop_fail (v := v) hnd hopen hbad
  have hdisj := (List.nodup_append.mp hnd).2.2
  refine ⟨⟨putKV st.hashmap symbol ⟨some v, some (ws1 ++ bad :: ws2)⟩, chans'⟩, ?_, ?_, hin⟩
  · simp only [ThreadUnsafe.put_price, hget, Price.update_price, Price.notify_waiters, hws,
      hloop]
  · intro id hid
    refine hout id ?_
    intro hid1
    exact hdisj hid1 (List.mem_cons_of_mem bad hid)

/-- C3 witness: waiters [0, 1, 2] on "s", channel 1's receiver dropped.
Insert 7 fails with error 7; waiter 0 received 7, waiter 2 is untouched. -/
theorem C3_witness :
    ∃ st', midDead.put_price "s" 7 = some (st', .error ⟨7⟩) ∧
      (∀ id ∈ [2], st'.chans[id]? = midDead.chans[id]?) ∧
      (∀ id ∈ [0], st'.chans[id]? =
        (midDead.chans[id]?).map (fun c => { c with buf := some 7, everSent := true })) := by
  refine @C3_fail_fast_on_closed_waiter Nat midDead "s" ⟨none, some [0, 1, 2]⟩
    [0] 1 [2] 7 rfl rfl (by decide) ?_ ?_
  · intro id hid
    rw [List.mem_singleton] at hid
    exact ⟨Chan.fresh Nat, by rw [hid]; rfl, rfl, rfl⟩
  · intro cb hcb
    cases hcb
    rfl

/-- C5: after any returning insert (in particular a successful one) the
stored value read back by `get_price` is the inserted value, and a second
insert at the same key overwrites it: last write wins. -/
theorem C5_insert_then_get {T : Type} {st st' : ThreadUnsafe T} {k : String} {v : T}
    {r : Except (SendError T) Unit} (h : st.put_price k v = some (st', r)) :
    st'.get_price k = some v ∧
    ∀ v2 st'' r2, st'.put_price k v2 = some (st'', r2) → st''.get_price k = some v2 :=
  ⟨put_price_value h, fun _ _ _ h2 => put_price_value h2⟩

/-- C5 witness: insert 1 then insert 2 at "symbol" from the empty map;
`get_price` reads 1 after the first and 2 after the second. -/
theorem C5_witness :
    ∃ st' st'', (ThreadUnsafe.new Nat).put_price "symbol" 1 = some (st', .ok ()) ∧
      st'.get_price "symbol" = some 1 ∧
      st'.put_price "symbol" 2 = some (st'', .ok ()) ∧
      st''.get_price "symbol" = some 2 := by
  refine ⟨⟨[("symbol", ⟨some 1, none⟩)], []⟩, ⟨[("symbol", ⟨some 2, none⟩)], []⟩,
    rfl, ?_, rfl, ?_⟩
  · exact (@C5_insert_then_get Nat (ThreadUnsafe.new Nat) ⟨[("symbol", ⟨some 1, none⟩)], []⟩
      "symbol" 1 (.ok ()) rfl).1
  · exact (@C5_insert_then_get Nat (ThreadUnsafe.new Nat) ⟨[("symbol", ⟨some 1, none⟩)], []⟩
      "symbol" 1 (.ok ()) rfl).2 2 _ _ rfl

/-- C9 (implicit): insert is not atomic on error — when `put_price` returns a
delivery failure, the error carries exactly `v`, the entry's stored value has
already been updated to `v` (a subsequent `get_price` returns `v`), and the
waiter list is exactly what it was before the call (no waiter removed,
including the ones already notified before the failure). -/
theorem C9_insert_not_atomic_on_error {T : Type} {st st' : ThreadUnsafe T} {k : String}
    {v : T} {e : SendError T} (h : st.put_price k v = some (st', .error e)) :
    e = ⟨v⟩ ∧ st'.get_price k = some v ∧
    ∃ price ws, getKV st.hashmap k = some price ∧ price.waiters = some ws ∧
      getKV st'.hashmap k = some { value := some v, waiters := some ws } := by
  obtain ⟨he, price, ws, hget, hws, hmap, _, _⟩ := put_price_err_spec h
  refine ⟨he, put_price_value h, price, ws, hget, hws, ?_⟩
  rw [hmap]
  exact getKV_putKV_self

/-- C9 witness: one waiter whose receiver was dropped; insert 7 fails with
error 7, yet `get_price` already reads 7 and the waiter list still holds the
registration. -/
theorem C9_witness :
    ∃ st' e, oneDead.put_price "s" 7 = some (st', .error e) ∧
      e = ⟨7⟩ ∧ st'.get_price "s" = some 7 ∧
      getKV st'.hashmap "s" = some ⟨some 7, some [0]⟩ := by
  refine ⟨⟨[("s", ⟨some 7, some [0]⟩)], [⟨none, true, false, false⟩]⟩, ⟨7⟩, rfl, ?_⟩
  obtain ⟨he, hv, _⟩ := @C9_insert_not_atomic_on_error Nat oneDead
    ⟨[("s", ⟨some 7, some [0]⟩)], [⟨none, true, false, false⟩]⟩ "s" 7 ⟨7⟩ rfl
  exact ⟨he, hv, rfl⟩

/-- C10 (implicit): inserting at a key with no entry (never inserted, never
observed) always succeeds — it cannot return a delivery failure — and leaves
the key's entry holding `v` with no registered waiters. -/
theorem C10_insert_fresh_key_succeeds {T : Type} {st : ThreadUnsafe T} {k : String} (v : T)
    (h : getKV st.hashmap k = none) :
    ∃ st', st.put_price k v = some (st', .ok ()) ∧
      getKV st'.hashmap k = some { value := some v, waiters := none } := by
  refine ⟨⟨putKV st.hashmap k (Price.fromValue v), st.chans⟩, ?_, ?_⟩
  · simp only [ThreadUnsafe.put_price, h]
  · exact getKV_putKV_self

/-- C10 witness: inserting 5 at the unknown key "k" of the empty map succeeds
and creates the entry `⟨5, no waiters⟩`. -/
theorem C10_witness :
    getKV (ThreadUnsafe.new Nat).hashmap "k" = none ∧
    ∃ st', (ThreadUnsafe.new Nat).put_price "k" 5 = some (st', .ok ()) ∧
      getKV st'.hashmap "k" = some ⟨some 5, none⟩ :=
  ⟨rfl, C10_insert_fresh_key_succeeds 5 rfl⟩

/-- `get_price` only looks at the entry for its key. -/
theorem get_price_congr_entry {T : Type} {st st' : ThreadUnsafe T} {k : String}
    (h : getKV st'.hashmap k = getKV st.hashmap k) : st'.get_price k = st.get_price k := by
  simp only [ThreadUnsafe.get_price, h]

/-- C2: observe/wait always registers a fresh waiter channel on the key's
entry even when a value already exists, and the existing value is never
delivered on that channel: with value `v1` present and no other waiters, the
wait is blocked right after registration (it does not return `v1`) and a
subsequent insert of `v2` satisfies it with `v2`; on a key for which no
value has ever existed, the wait is likewise blocked until the first insert,
whose value satisfies it. -/
theorem C2_wait_returns_next_value {T : Type} (st : ThreadUnsafe T) (symbol : String)
    (v2 : T) :
    (∀ price v1, getKV st.hashmap symbol = some price → price.waiters = none →
      price.value = some v1 →
      (∃ p', getKV (st.price_receiver symbol).1.hashmap symbol = some p' ∧
        p'.value = some v1 ∧ p'.waiters = some [(st.price_receiver symbol).2]) ∧
      ((st.price_receiver symbol).1.recvOn (st.price_receiver symbol).2).1 = .blocked ∧
      ∃ st2, (st.price_receiver symbol).1.put_price symbol v2 = some (st2, .ok ()) ∧
        (st2.recvOn (st.price_receiver symbol).2).1 = .ok v2) ∧
    (getKV st.hashmap symbol = none →
      ((st.price_receiver symbol).1.recvOn (st.price_receiver symbol).2).1 = .blocked ∧
      ∃ st2, (st.price_receiver symbol).1.put_price symbol v2 = some (st2, .ok ()) ∧
        (st2.recvOn (st.price_receiver symbol).2).1 = .ok v2) := by
  have hrid : (st.price_receiver symbol).2 = st.chans.length := price_receiver_rid st symbol
  have hch : (st.price_receiver symbol).1.chans[st.chans.length]? = some (Chan.fresh T) := by
    rw [price_receiver_chans]
    exact List.getElem?_concat_length st.chans (Chan.fresh T)
  obtain ⟨p', hp', hval', hws'⟩ := price_receiver_entry st symbol
  constructor
  · intro price v1 hget hwsn hv1
    have hws'' : p'.waiters = some [st.chans.length] := by
      rw [hws', hget]
      simp [hwsn]
    obtain ⟨hblocked, hdeliver⟩ := registered_fresh_wait hp' hws'' hch v2
    refine ⟨⟨p', hp', ?_, ?_⟩, ?_, ?_⟩
    · rw [hval']
      simp [ThreadUnsafe.get_price, hget, hv1]
    · rw [hws'', hrid]
    · rw [hrid]
      exact hblocked
    · rw [hrid]
      exact hdeliver
  · intro hget
    have hws'' : p'.waiters = some [st.chans.length] := by
      rw [hws', hget]
      rfl
    obtain ⟨hblocked, hdeliver⟩ := registered_fresh_wait hp' hws'' hch v2
    rw [hrid]
    exact ⟨hblocked, hdeliver⟩

/-- C2 witness: key "s" holds 1; a wait registered after that insert is
blocked (it does not receive 1) and receives 2 from the next insert; a wait
on the fresh key "t" of an empty map is blocked and receives the first
inserted value 5. -/
theorem C2_witness :
    ((hasValue.price_receiver "s").1.recvOn 0).1 = .blocked ∧
    (∃ st2, (hasValue.price_receiver "s").1.put_price "s" 2 = some (st2, .ok ()) ∧
      (st2.recvOn 0).1 = .ok 2) ∧
    (((ThreadUnsafe.new Nat).price_receiver "t").1.recvOn 0).1 = .blocked ∧
    (∃ st2, ((ThreadUnsafe.new Nat).price_receiver "t").1.put_price "t" 5 =
        some (st2, .ok ()) ∧ (st2.recvOn 0).1 = .ok 5) := by
  obtain ⟨ha, _⟩ := C2_wait_returns_next_value hasValue "s" 2
  obtain ⟨_, hb⟩ := C2_wait_returns_next_value (ThreadUnsafe.new Nat) "t" 5
  obtain ⟨_, ha2, ha3⟩ := ha ⟨some 1, none⟩ 1 rfl rfl rfl
  obtain ⟨hb1, hb2⟩ := hb rfl
  exact ⟨ha2, ha3, hb1, hb2⟩

/-- C4 as stated is refuted by the code: in the concrete sequence
observe "s"; observe "s"; drop the second wait's receiver; insert 7 — the
insert returns a delivery failure and afterwards waiter channel 0 has
received the value (7 is buffered on it, and it was sent to) yet channel 0
is still in the entry's waiter list, so a waiter channel that received a
value was not removed. -/
theorem C4_counterexample :
    ∃ stF : ThreadUnsafe Nat, ∃ p c,
      ((((ThreadUnsafe.new Nat).price_receiver "s").1.price_receiver
          "s").1.dropReceiver 1).put_price "s" 7 = some (stF, .error ⟨7⟩) ∧
      getKV stF.hashmap "s" = some p ∧ 0 ∈ p.waiters.getD [] ∧
      stF.chans[0]? = some c ∧ c.everSent = true ∧ c.buf = some 7 := by
  refine ⟨⟨[("s", ⟨some 7, some [0, 1]⟩)],
      [⟨some 7, true, true, true⟩, ⟨none, true, false, false⟩]⟩,
    ⟨some 7, some [0, 1]⟩, ⟨some 7, true, true, true⟩, ?_, rfl, ?_, rfl, rfl, rfl⟩
  · rfl
  · simp

/-- C4 corrected: on every state reachable by a sequence of
insert/observe/wait calls in which every insert succeeds, every channel
still registered in some entry's waiter list has never been sent a value —
equivalently, a waiter channel that has received a value has been removed
from the waiter list (at-most-one delivery per registration).  Sequences
containing a failed insert are excluded: there the already-notified waiters
stay registered (see the counterexample and C9). -/
theorem C4_amended_delivered_implies_deregistered {T : Type} {st : ThreadUnsafe T}
    (h : Reachable st) :
    ∀ kp ∈ st.hashmap, ∀ id ∈ kp.2.waiters.getD [], ∀ c, st.chans[id]? = some c →
      c.everSent = false :=
  fun kp hkp id hid c hc => (reachable_inv h).fresh kp hkp id hid c hc

/-- C4 witness: the reachable state after observe "s"; insert 5 (successful,
delivering 5 to the lone waiter); observe "s" again — its registered waiter
channel (index 1) has never been sent to. -/
theorem C4_witness :
    Reachable ((⟨[("s", ⟨some 5, none⟩)], [⟨some 5, true, true, true⟩]⟩ :
      ThreadUnsafe Nat).price_receiver "s").1 ∧
    ∀ kp ∈ ((⟨[("s", ⟨some 5, none⟩)], [⟨some 5, true, true, true⟩]⟩ :
        ThreadUnsafe Nat).price_receiver "s").1.hashmap,
      ∀ id ∈ kp.2.waiters.getD [], ∀ c,
        ((⟨[("s", ⟨some 5, none⟩)], [⟨some 5, true, true, true⟩]⟩ :
          ThreadUnsafe Nat).price_receiver "s").1.chans[id]? = some c →
        c.everSent = false := by
  have h0 : Reachable (((ThreadUnsafe.new Nat).price_receiver "s").1) :=
    Reachable.observe "s" Reachable.init
  have h1 : Reachable (⟨[("s", ⟨none, some [0]⟩)], [Chan.fresh Nat]⟩ : ThreadUnsafe Nat) := h0
  have h2 : Reachable (⟨[("s", ⟨some 5, none⟩)], [⟨some 5, true, true, true⟩]⟩ :
      ThreadUnsafe Nat) :=
    @Reachable.putOk Nat ⟨[("s", ⟨none, some [0]⟩)], [Chan.fresh Nat]⟩
      ⟨[("s", ⟨some 5, none⟩)], [⟨some 5, true, true, true⟩]⟩ "s" 5 h1 rfl
  have h3 : Reachable ((⟨[("s", ⟨some 5, none⟩)], [⟨some 5, true, true, true⟩]⟩ :
      ThreadUnsafe Nat).price_receiver "s").1 := Reachable.observe "s" h2
  exact ⟨h3, C4_amended_delivered_implies_deregistered h3⟩

/-- C6: for every key on which insert has never been called, `get_price`
returns absent, regardless of observe/wait registrations, receiver
consumption or drops, waiter clearing/removal, and inserts at other keys. -/
theorem C6_get_never_inserted_absent {T : Type} {k : String} {st : ThreadUnsafe T}
    (h : ReachAvoid k st) : st.get_price k = none := by
  induction h with
  | init => rfl
  | put hne _ hput ih =>
    rw [get_price_congr_entry (put_price_other_keys hput (Ne.symm hne))]
    exact ih
  | observe s _ ih =>
    rename_i st0 _
    rw [get_price_price_receiver st0 s k]
    exact ih
  | recvStep rid _ ih =>
    rename_i st0 _
    have hh : getKV ((st0.recvOn rid).2).hashmap k = getKV st0.hashmap k := by
      rw [hashmap_recvOn]
    rw [get_price_congr_entry hh]
    exact ih
  | dropR rid _ ih =>
    rename_i st0 _
    have hh : getKV (st0.dropReceiver rid).hashmap k = getKV st0.hashmap k := by
      rw [hashmap_dropReceiver]
    rw [get_price_congr_entry hh]
    exact ih
  | clearW s _ ih =>
    rename_i st0 _
    rw [get_price_clearWaiters st0 s k]
    exact ih
  | dropW s rid _ ih =>
    rename_i st0 _
    rw [get_price_dropWaiter st0 s k rid]
    exact ih

/-- C6 witness: after observe "x"; insert 3 at "y"; clear the waiters of "x",
the never-inserted key "x" still reads absent. -/
theorem C6_witness :
    ReachAvoid "x" ((⟨[("x", ⟨none, some [0]⟩), ("y", ⟨some 3, none⟩)],
      [Chan.fresh Nat]⟩ : ThreadUnsafe Nat).clearWaiters "x") ∧
    ((⟨[("x", ⟨none, some [0]⟩), ("y", ⟨some 3, none⟩)], [Chan.fresh Nat]⟩ :
      ThreadUnsafe Nat).clearWaiters "x").get_price "x" = none := by
  have h0 : ReachAvoid "x" (((ThreadUnsafe.new Nat).price_receiver "x").1) :=
    ReachAvoid.observe "x" ReachAvoid.init
  have h1 : ReachAvoid "x" (⟨[("x", ⟨none, some [0]⟩)], [Chan.fresh Nat]⟩ :
      ThreadUnsafe Nat) := h0
  have h2 : ReachAvoid "x" (⟨[("x", ⟨none, some [0]⟩), ("y", ⟨some 3, none⟩)],
      [Chan.fresh Nat]⟩ : ThreadUnsafe Nat) :=
    @ReachAvoid.put Nat "x" ⟨[("x", ⟨none, some [0]⟩)], [Chan.fresh Nat]⟩
      ⟨[("x", ⟨none, some [0]⟩), ("y", ⟨some 3, none⟩)], [Chan.fresh Nat]⟩
      "y" 3 (.ok ()) (by decide) h1 rfl
  have h3 := ReachAvoid.clearW "x" h2
  exact ⟨h3, C6_get_never_inserted_absent h3⟩

/-- C7: a wait whose registration has a live sender is still blocked (no
`Closed` error); removing the registrations without sending — clearing the
whole waiter list, or removing a single waiter `w` — makes exactly the
affected waits return the `Closed` error (`RecvError`); and removing one
waiter does not affect the others: a subsequent insert still succeeds and
delivers the value to every remaining waiter. -/
theorem C7_closed_iff_registration_removed {T : Type} {st : ThreadUnsafe T}
    {symbol : String} {price : Price T} {ws : List Nat} {w : Nat} (v : T)
    (hget : getKV st.hashmap symbol = some price)
    (hws : price.waiters = some ws)
    (hnd : ws.Nodup)
    (hch : ∀ id ∈ ws, st.chans[id]? = some (Chan.fresh T))
    (hw : w ∈ ws) :
    ((st.recvOn w).1 = .blocked) ∧
    (∀ id ∈ ws, ((st.clearWaiters symbol).recvOn id).1 = .err) ∧
    (((st.dropWaiter symbol w).recvOn w).1 = .err) ∧
    (∃ st2, (st.dropWaiter symbol w).put_price symbol v = some (st2, .ok ()) ∧
      ∀ id ∈ ws, id ≠ w → (st2.recvOn id).1 = .ok v) := by
  obtain ⟨hce, hcc⟩ := clearWaiters_spec hget
  obtain ⟨hde, hdc⟩ := dropWaiter_spec hget w
  have hgetd : price.waiters.getD [] = ws := by rw [hws]; rfl
  refine ⟨?_, ?_, ?_, ?_⟩
  · rw [recvOn_result (hch w hw)]
    rfl
  · intro id hid
    have hcid : (st.clearWaiters symbol).chans[id]? =
        some ⟨none, false, true, false⟩ := by
      rw [hcc id, hgetd, if_pos hid, hch id hid]
      rfl
    rw [recvOn_result hcid]
    rfl
  · have hdw : (st.dropWaiter symbol w).chans[w]? = some ⟨none, false, true, false⟩ := by
      rw [hdc w, if_pos rfl, hch w hw]
      rfl
    rw [recvOn_result hdw]
    rfl
  · have hde' : getKV (st.dropWaiter symbol w).hashmap symbol =
        some { price with waiters := some (ws.filter (fun i => i ≠ w)) } := by
      rw [hde, hgetd]
    have hchd : ∀ id ∈ ws.filter (fun i => i ≠ w),
        (st.dropWaiter symbol w).chans[id]? = some (Chan.fresh T) := by
      intro id hid
      rw [List.mem_filter] at hid
      have hne : id ≠ w := by simpa using hid.2
      rw [hdc id, if_neg (fun he => hne he.symm)]
      exact hch id hid.1
    have hopen : ∀ id ∈ ws.filter (fun i => i ≠ w),
        ∃ c, (st.dropWaiter symbol w).chans[id]? = some c ∧
          c.receiverAlive = true ∧ c.buf = none := by
      intro id hid
      exact ⟨Chan.fresh T, hchd id hid, rfl, rfl⟩
    obtain ⟨chans', hput, hin, _⟩ :=
      put_price_delivers hde' rfl (List.Nodup.filter _ hnd) hopen
    refine ⟨_, hput, ?_⟩
    intro id hid hne
    have hidf : id ∈ ws.filter (fun i => i ≠ w) := by
      rw [List.mem_filter]
      exact ⟨hid, by simpa using hne⟩
    have hc2 : (⟨putKV (st.dropWaiter symbol w).hashmap symbol ⟨some v, none⟩, chans'⟩ :
        ThreadUnsafe T).chans[id]? = some ⟨some v, true, true, true⟩ := by
      show chans'[id]? = _
      rw [hin id hidf, hchd id hidf]
      rfl
    rw [recvOn_result hc2]

/-- C7 witness: two fresh waiters [0, 1] on "s".  Waiter 0 is blocked while
registered; clearing all waiters closes both waits; dropping waiter 0 closes
its wait, and inserting 9 afterwards still succeeds and delivers 9 to
waiter 1. -/
theorem C7_witness :
    ((twoWaiters.recvOn 0).1 = .blocked) ∧
    (∀ id ∈ [0, 1], ((twoWaiters.clearWaiters "s").recvOn id).1 = .err) ∧
    (((twoWaiters.dropWaiter "s" 0).recvOn 0).1 = .err) ∧
    (∃ st2, (twoWaiters.dropWaiter "s" 0).put_price "s" 9 = some (st2, .ok ()) ∧
      ∀ id ∈ [0, 1], id ≠ 0 → (st2.recvOn id).1 = .ok 9) := by
  refine @C7_closed_iff_registration_removed Nat twoWaiters "s" ⟨none, some [0, 1]⟩
    [0, 1] 0 9 rfl rfl (by decide) ?_ (by decide)
  intro id hid
  rcases List.mem_cons.mp hid with h0 | hid
  · rw [h0]; rfl
  · rw [List.mem_singleton] at hid
    rw [hid]; rfl

/-- C8: in the source `get_price` takes `&self`, so its embedding is a pure
function of the state: calling it cannot register or remove a waiter, block,
or modify a stored value.  Provably: its result is exactly the entry's
stored value (absent when the key is unknown), and it is unaffected by
pending `wait` registrations. -/
theorem C8_get_price_is_pure_read {T : Type} (st : ThreadUnsafe T) (k s : String) :
    ((st.price_receiver s).1.get_price k = st.get_price k) ∧
    (∀ p, getKV st.hashmap k = some p → st.get_price k = p.value) ∧
    (getKV st.hashmap k = none → st.get_price k = none) := by
  refine ⟨get_price_price_receiver st s k, ?_, ?_⟩
  · intro p hp
    simp [ThreadUnsafe.get_price, hp]
  · intro hp
    simp [ThreadUnsafe.get_price, hp]

/-- C8 witness: with waiters pending on "s", `get_price` after a further
registration agrees with `get_price` before it, reads the stored value of
"s" (absent here), and reads absent at the unknown key "z". -/
theorem C8_witness :
    ((twoWaiters.price_receiver "s").1.get_price "s" = twoWaiters.get_price "s") ∧
    twoWaiters.get_price "s" = (⟨none, some [0, 1]⟩ : Price Nat).value ∧
    twoWaiters.get_price "z" = none := by
  obtain ⟨h1, h2, _⟩ := C8_get_price_is_pure_read twoWaiters "s" "s"
  obtain ⟨_, _, h3⟩ := C8_get_price_is_pure_read twoWaiters "z" "s"
  exact ⟨h1, h2 _ rfl, h3 rfl⟩

end OMaps
